import Mathlib

/-!
Verification of the image-migration script `DataJarvis/download_images.py`.

Strings are modelled as `List Char`.  Python functions are translated into
executable Lean definitions; the HTTP transport and the run-dependent
`hash` builtin are explicit oracle parameters.  Recursions whose measure
is the length of the scanned string are realised with an explicit fuel
argument initialised to that length, together with lemmas showing the
fuel is irrelevant once it dominates the length, so that every
definition computes by kernel reduction.
-/

/-- ASCII lower-casing of one character, modelling the effect of Python
`str.lower` on the ASCII range (the script only lowers URL text). -/
def lowerChar (c : Char) : Char :=
  match c with
  | 'A' => 'a'
  | 'B' => 'b'
  | 'C' => 'c'
  | 'D' => 'd'
  | 'E' => 'e'
  | 'F' => 'f'
  | 'G' => 'g'
  | 'H' => 'h'
  | 'I' => 'i'
  | 'J' => 'j'
  | 'K' => 'k'
  | 'L' => 'l'
  | 'M' => 'm'
  | 'N' => 'n'
  | 'O' => 'o'
  | 'P' => 'p'
  | 'Q' => 'q'
  | 'R' => 'r'
  | 'S' => 's'
  | 'T' => 't'
  | 'U' => 'u'
  | 'V' => 'v'
  | 'W' => 'w'
  | 'X' => 'x'
  | 'Y' => 'y'
  | 'Z' => 'z'
  | c => c

/-- Python `s.lower()`. -/
def pyLower (s : List Char) : List Char := s.map lowerChar

/-- Python `s.endswith(suf)`. -/
def pyEndsWith (s suf : List Char) : Bool := suf.isSuffixOf s

/-- Python `sub in s` (substring test). -/
def pyContains (s sub : List Char) : Bool :=
  match s with
  | [] => sub.isEmpty
  | _ :: t => sub.isPrefixOf s || pyContains t sub

/-- The characters of the literal `'.png'`. -/
def pngExt : List Char := ['.', 'p', 'n', 'g']

/-- The characters of the literal `'png'`. -/
def pngTok : List Char := ['p', 'n', 'g']

/-- The PNG filter of `extract_image_urls` (line 96 of the script):
`url.endswith('.png') or 'png' in url.lower()`. -/
def pngAccept (url : List Char) : Bool :=
  pyEndsWith url pngExt || pyContains (pyLower url) pngTok

theorem pyContains_spec (s sub : List Char) :
    pyContains s sub = true ↔ sub <:+: s := by
  induction s with
  | nil =>
    simp [pyContains, List.isEmpty_iff]
  | cons c t ih =>
    simp only [pyContains, Bool.or_eq_true, ih]
    rw [List.infix_cons_iff]
    constructor
    · rintro (h | h)
      · exact Or.inl ( List.isPrefixOf_iff_prefix.mp h)
      · exact Or.inr h
    · rintro (h | h)
      · exact Or.inl ( List.isPrefixOf_iff_prefix.mpr h)
      · exact Or.inr h

theorem pyEndsWith_iff_suffix (s suf : List Char) :
    pyEndsWith s suf = true ↔ suf <:+ s := by
  unfold pyEndsWith
  exact List.isSuffixOf_iff_suffix

/-- If a string ends with `'.png'` then its lower-casing contains `'png'`. -/
theorem endsWith_png_contains (s : List Char) (h : pyEndsWith s pngExt = true) :
    pyContains (pyLower s) pngTok = true := by
  rw [pyEndsWith_iff_suffix] at h
  obtain ⟨t, rfl⟩ := h
  rw [pyContains_spec]
  have hmap : pyLower (t ++ pngExt) = pyLower t ++ pngExt := by
    simp [pyLower, pngExt, lowerChar]
  rw [hmap]
  have : pyLower t ++ pngExt = (pyLower t ++ ['.']) ++ pngTok := by
    simp [pngExt, pngTok]
  rw [this]
  exact (List.suffix_append (pyLower t ++ ['.']) pngTok).isInfix

/-- C9: the extractor's acceptance predicate — `url.endswith('.png') or
'png' in url.lower()` — is equivalent to the substring test alone: the
suffix disjunct is redundant, since a string ending with `'.png'` always
has `'png'` as a substring of its lower-casing. -/
theorem c9_suffix_disjunct_redundant (s : List Char) :
    pngAccept s = pyContains (pyLower s) pngTok
  ∧ (pyEndsWith s pngExt = true → pyContains (pyLower s) pngTok = true) := by
  refine ⟨?_, endsWith_png_contains s⟩
  unfold pngAccept
  cases he : pyEndsWith s pngExt with
  | false => simp
  | true => simp [endsWith_png_contains s he]

/-- Witness for C9 at the concrete value `"c.PNG"`. -/
theorem c9_witness :
    pngAccept ("c.PNG".toList) = pyContains (pyLower ("c.PNG".toList)) pngTok
  ∧ (pyEndsWith ("c.PNG".toList) pngExt = true →
      pyContains (pyLower ("c.PNG".toList)) pngTok = true) :=
  c9_suffix_disjunct_redundant ("c.PNG".toList)

/-!
The URL extractor (`extract_image_urls`, lines 84-99).  The regex
`<img[^>]+src=["\x27]([^"\x27]+)["\x27][^>]*>` is embedded as a
backtracking matcher with Python's greedy semantics, and `re.findall`
as a left-to-right non-overlapping scan.
-/

/-- The double-quote character. -/
def quoteD : Char := Char.ofNat 34

/-- The single-quote character. -/
def quoteS : Char := Char.ofNat 39

/-- Membership in the character class of the two quote characters. -/
def isQuoteChar (c : Char) : Bool := c == quoteD || c == quoteS

/-- The character class `[^>]`. -/
def notGT (c : Char) : Bool := c != '>'

/-- The character class of the capture group, `[^"\x27]`. -/
def notQuote (c : Char) : Bool := !(isQuoteChar c)

/-- The literal `<img` of the regex. -/
def imgLit : List Char := ['<', 'i', 'm', 'g']

/-- The literal `src=` of the regex. -/
def srcLit : List Char := ['s', 'r', 'c', '=']

/-- Consume a literal at the head of the input. -/
def eatLit (lit l : List Char) : Option (List Char) :=
  if lit.isPrefixOf l then some (l.drop lit.length) else none

/-- Greedy `cls*` over class `p` with continuation `k`: consume as many
`p`-characters as possible, backtracking one at a time when `k` fails. -/
def greedyStar {α : Type} (p : Char → Bool) (k : List Char → Option α) :
    List Char → Option α
  | [] => k []
  | c :: rest =>
    if p c then
      match greedyStar p k rest with
      | some r => some r
      | none => k (c :: rest)
    else k (c :: rest)

/-- Greedy `cls+`: at least one `p`-character, then `greedyStar`. -/
def greedyPlus {α : Type} (p : Char → Bool) (k : List Char → Option α) :
    List Char → Option α
  | [] => none
  | c :: rest => if p c then greedyStar p k rest else none

/-- Greedy `cls*` recording the consumed characters (the capture group);
`acc` holds the consumed characters in reverse. -/
def greedyStarCap {α : Type} (p : Char → Bool)
    (k : List Char → List Char → Option α) :
    List Char → List Char → Option α
  | acc, [] => k acc.reverse []
  | acc, c :: rest =>
    if p c then
      match greedyStarCap p k (c :: acc) rest with
      | some r => some r
      | none => k acc.reverse (c :: rest)
    else k acc.reverse (c :: rest)

/-- Greedy capturing `cls+`. -/
def greedyPlusCap {α : Type} (p : Char → Bool)
    (k : List Char → List Char → Option α) : List Char → Option α
  | [] => none
  | c :: rest => if p c then greedyStarCap p k [c] rest else none

/-- Regex tail `>`: the final literal; returns the capture and the rest of
the document after the match. -/
def tailGT (cap : List Char) : List Char → Option (List Char × List Char)
  | [] => none
  | c :: rest => if c == '>' then some (cap, rest) else none

/-- Regex tail `["\x27][^>]*>`: closing quote, greedy `[^>]*`, then `>`. -/
def tailClose (cap : List Char) (l : List Char) :
    Option (List Char × List Char) :=
  match l with
  | [] => none
  | q :: rest => if isQuoteChar q then greedyStar notGT (tailGT cap) rest else none

/-- Regex tail `src=["\x27]([^"\x27]+)...`: the literal `src=`, an opening
quote, then the greedy capture group followed by `tailClose`. -/
def tailSrc (l : List Char) : Option (List Char × List Char) :=
  match eatLit srcLit l with
  | none => none
  | some l2 =>
    match l2 with
    | [] => none
    | q :: rest =>
      if isQuoteChar q then greedyPlusCap notQuote tailClose rest else none

/-- One anchored attempt of the whole regex at the head of `l`. -/
def imgMatch (l : List Char) : Option (List Char × List Char) :=
  match eatLit imgLit l with
  | none => none
  | some l1 => greedyPlus notGT tailSrc l1

theorem greedyStar_some {α : Type} (p : Char → Bool) (k : List Char → Option α) :
    ∀ (l : List Char) (r : α), greedyStar p k l = some r →
      ∃ l', l'.length ≤ l.length ∧ k l' = some r := by
  intro l
  induction l with
  | nil => exact fun r h => ⟨[], Nat.le_refl 0, h⟩
  | cons c rest ih =>
    intro r h
    simp only [greedyStar] at h
    by_cases hp : p c = true
    · rw [if_pos hp] at h
      cases hgs : greedyStar p k rest with
      | some r' =>
        rw [hgs] at h
        simp only [Option.some.injEq] at h
        obtain ⟨l', hl, hk⟩ := ih r' hgs
        exact ⟨l', Nat.le_succ_of_le hl, h ▸ hk⟩
      | none =>
        rw [hgs] at h
        exact ⟨c :: rest, Nat.le_refl _, h⟩
    · rw [if_neg hp] at h
      exact ⟨c :: rest, Nat.le_refl _, h⟩

theorem greedyPlus_some {α : Type} (p : Char → Bool) (k : List Char → Option α)
    (l : List Char) (r : α) (h : greedyPlus p k l = some r) :
    ∃ l', l'.length < l.length ∧ k l' = some r := by
  cases l with
  | nil => simp [greedyPlus] at h
  | cons c rest =>
    simp only [greedyPlus] at h
    by_cases hp : p c = true
    · rw [if_pos hp] at h
      obtain ⟨l', hl, hk⟩ := greedyStar_some p k rest r h
      exact ⟨l', Nat.lt_succ_of_le hl, hk⟩
    · rw [if_neg hp] at h
      cases h

theorem greedyStarCap_some {α : Type} (p : Char → Bool)
    (k : List Char → List Char → Option α) :
    ∀ (l acc : List Char) (r : α), greedyStarCap p k acc l = some r →
      ∃ cap l', l'.length ≤ l.length ∧ k cap l' = some r := by
  intro l
  induction l with
  | nil => exact fun acc r h => ⟨acc.reverse, [], Nat.le_refl 0, h⟩
  | cons c rest ih =>
    intro acc r h
    simp only [greedyStarCap] at h
    by_cases hp : p c = true
    · rw [if_pos hp] at h
      cases hgs : greedyStarCap p k (c :: acc) rest with
      | some r' =>
        rw [hgs] at h
        simp only [Option.some.injEq] at h
        obtain ⟨cap, l', hl, hk⟩ := ih (c :: acc) r' hgs
        exact ⟨cap, l', Nat.le_succ_of_le hl, h ▸ hk⟩
      | none =>
        rw [hgs] at h
        exact ⟨acc.reverse, c :: rest, Nat.le_refl _, h⟩
    · rw [if_neg hp] at h
      exact ⟨acc.reverse, c :: rest, Nat.le_refl _, h⟩

theorem greedyPlusCap_some {α : Type} (p : Char → Bool)
    (k : List Char → List Char → Option α)
    (l : List Char) (r : α) (h : greedyPlusCap p k l = some r) :
    ∃ cap l', l'.length < l.length ∧ k cap l' = some r := by
  cases l with
  | nil => simp [greedyPlusCap] at h
  | cons c rest =>
    simp only [greedyPlusCap] at h
    by_cases hp : p c = true
    · rw [if_pos hp] at h
      obtain ⟨cap, l', hl, hk⟩ := greedyStarCap_some p k rest [c] r h
      exact ⟨cap, l', Nat.lt_succ_of_le hl, hk⟩
    · rw [if_neg hp] at h
      cases h

theorem eatLit_some (lit l l' : List Char) (h : eatLit lit l = some l') :
    l'.length = l.length - lit.length ∧ lit.length ≤ l.length := by
  unfold eatLit at h
  split at h
  · rename_i hpre
    have hle : lit.length ≤ l.length :=
      ( List.isPrefixOf_iff_prefix.mp hpre).length_le
    cases h
    exact ⟨List.length_drop _ _, hle⟩
  · cases h

theorem tailGT_some (cap : List Char) (l : List Char) (cap' rem : List Char)
    (h : tailGT cap l = some (cap', rem)) :
    cap' = cap ∧ rem.length < l.length := by
  cases l with
  | nil => simp [tailGT] at h
  | cons c rest =>
    simp only [tailGT] at h
    split at h
    · cases h
      exact ⟨rfl, Nat.lt_succ_self _⟩
    · cases h

theorem tailClose_some (cap : List Char) (l : List Char) (cap' rem : List Char)
    (h : tailClose cap l = some (cap', rem)) :
    cap' = cap ∧ rem.length < l.length := by
  cases l with
  | nil => simp [tailClose] at h
  | cons q rest =>
    simp only [tailClose] at h
    split at h
    · obtain ⟨l', hl, hk⟩ := greedyStar_some notGT (tailGT cap) rest _ h
      obtain ⟨hc, hr⟩ := tailGT_some cap l' cap' rem hk
      exact ⟨hc, Nat.lt_succ_of_le (Nat.le_of_lt (Nat.lt_of_lt_of_le hr hl))⟩
    · cases h

theorem tailSrc_some (l : List Char) (cap rem : List Char)
    (h : tailSrc l = some (cap, rem)) : rem.length < l.length := by
  unfold tailSrc at h
  cases he : eatLit srcLit l with
  | none => rw [he] at h; cases h
  | some l2 =>
    rw [he] at h
    obtain ⟨hlen, _⟩ := eatLit_some srcLit l l2 he
    cases l2 with
    | nil => cases h
    | cons q rest =>
      simp only at h
      split at h
      · obtain ⟨cap', l', hl, hk⟩ := greedyPlusCap_some notQuote tailClose rest _ h
        obtain ⟨_, hr⟩ := tailClose_some cap' l' cap rem hk
        have h1 : rem.length < rest.length := Nat.lt_of_lt_of_le hr (Nat.le_of_lt hl)
        have h2 : (q :: rest).length = rest.length + 1 := List.length_cons q rest
        have h4 : srcLit.length = 4 := rfl
        omega
      · cases h

theorem imgMatch_some (l : List Char) (cap rem : List Char)
    (h : imgMatch l = some (cap, rem)) : rem.length < l.length := by
  unfold imgMatch at h
  cases he : eatLit imgLit l with
  | none => rw [he] at h; cases h
  | some l1 =>
    rw [he] at h
    obtain ⟨hlen, hle⟩ := eatLit_some imgLit l l1 he
    obtain ⟨l', hl, hk⟩ := greedyPlus_some notGT tailSrc l1 _ h
    have hr := tailSrc_some l' cap rem hk
    have : imgLit.length = 4 := rfl
    omega

/-- `re.findall` scanning with fuel: try a match at each position; on a
match record the capture and continue after the match, otherwise advance
one character.  Every match consumes at least one character
(`imgMatch_some`), so fuel equal to the length of the input suffices
(`imgFindallFuel_congr`). -/
def imgFindallFuel : Nat → List Char → List (List Char)
  | 0, _ => []
  | _ + 1, [] => []
  | n + 1, c :: rest =>
    match imgMatch (c :: rest) with
    | some (cap, rem) => cap :: imgFindallFuel n rem
    | none => imgFindallFuel n rest

/-- `re.findall(img_pattern, content)` (line 91 of the script): the list of
captured `src` attribute values, in document order. -/
def imgFindall (content : List Char) : List (List Char) :=
  imgFindallFuel content.length content

theorem imgFindallFuel_congr :
    ∀ (n m : Nat) (l : List Char), l.length ≤ n → l.length ≤ m →
      imgFindallFuel n l = imgFindallFuel m l := by
  intro n
  induction n with
  | zero =>
    intro m l hn _
    have hl : l = [] := List.length_eq_zero.mp (Nat.le_zero.mp hn)
    subst hl
    cases m <;> rfl
  | succ n ih =>
    intro m l hn hm
    cases l with
    | nil => cases m <;> rfl
    | cons c rest =>
      cases m with
      | zero => simp [List.length_cons] at hm
      | succ m' =>
        simp only [imgFindallFuel]
        have hrest : rest.length ≤ n := by
          have := List.length_cons c rest
          omega
        have hrest' : rest.length ≤ m' := by
          have := List.length_cons c rest
          omega
        cases hmt : imgMatch (c :: rest) with
        | some pr =>
          obtain ⟨cap, rem⟩ := pr
          have hlt := imgMatch_some (c :: rest) cap rem hmt
          have h1 : rem.length ≤ n := by
            have := List.length_cons c rest
            omega
          have h2 : rem.length ≤ m' := by
            have := List.length_cons c rest
            omega
          show cap :: imgFindallFuel n rem = cap :: imgFindallFuel m' rem
          rw [ih m' rem h1 h2]
        | none => exact ih m' rest hrest hrest'

/-- `extract_image_urls` (lines 84-99): run the regex scan, then keep the
values accepted by the PNG filter, preserving order and multiplicity. -/
def extract_image_urls (content : List Char) : List (List Char) :=
  (imgFindall content).filter pngAccept

/-- The document of the spec's worked example: three img tags whose src
values are `a.png`, `b.jpg` and `c.PNG`. -/
def exampleDoc : List Char :=
  "<img src=\"a.png\"><img src=\"b.jpg\"><img src=\"c.PNG\">".toList

/-- C2: the extractor returns exactly those captured src attribute values
that satisfy the PNG predicate (value ends with `.png`, or contains `png`
case-insensitively), in order of first appearance with duplicates
preserved (the filtered list is a sublist of the capture list, membership
is characterised by the predicate, and multiplicities of accepted values
are unchanged); on the example document with values `a.png`, `b.jpg`,
`c.PNG` it returns `[a.png, c.PNG]` in source order. -/
theorem c2_extract_image_urls (content u : List Char) :
    (extract_image_urls content).Sublist (imgFindall content)
  ∧ (u ∈ extract_image_urls content ↔
      (u ∈ imgFindall content ∧ pngAccept u = true))
  ∧ (pngAccept u = true →
      (extract_image_urls content).count u = (imgFindall content).count u)
  ∧ extract_image_urls exampleDoc = ["a.png".toList, "c.PNG".toList] := by
  refine ⟨List.filter_sublist _, ?_, ?_, by decide⟩
  · simp [extract_image_urls, List.mem_filter]
  · intro hu
    exact List.count_filter hu

/-- Witness for C2 at the example document and the value `a.png`. -/
theorem c2_witness :
    (extract_image_urls exampleDoc).Sublist (imgFindall exampleDoc)
  ∧ ("a.png".toList ∈ extract_image_urls exampleDoc ↔
      ("a.png".toList ∈ imgFindall exampleDoc ∧ pngAccept ("a.png".toList) = true))
  ∧ (pngAccept ("a.png".toList) = true →
      (extract_image_urls exampleDoc).count ("a.png".toList) =
        (imgFindall exampleDoc).count ("a.png".toList))
  ∧ extract_image_urls exampleDoc = ["a.png".toList, "c.PNG".toList] :=
  c2_extract_image_urls exampleDoc ("a.png".toList)

/-!
Filename derivation (`download_image`, lines 58-68):
`urlparse(url).path`, `os.path.basename`, the `hash`-based fallback name
and the `.png` suffix fix-up.
-/

/-- The backslash character (the alternative path separator). -/
def bslash : Char := Char.ofNat 92

/-- An ASCII letter. -/
def isAsciiAlpha (c : Char) : Bool :=
  (decide ('a' ≤ c) && decide (c ≤ 'z')) || (decide ('A' ≤ c) && decide (c ≤ 'Z'))

/-- Characters allowed in a URL scheme after the first
(`urllib.parse.scheme_chars`): letters, digits, `+`, `-`, `.`. -/
def isSchemeChar (c : Char) : Bool :=
  isAsciiAlpha c || (decide ('0' ≤ c) && decide (c ≤ '9'))
    || c == '+' || c == '-' || c == '.'

/-- The schemes for which `urlparse` strips `;parameters` from the last
path segment (`urllib.parse.uses_params`). -/
def uses_params : List (List Char) :=
  [[], "ftp".toList, "hdl".toList, "prospero".toList, "http".toList,
   "imap".toList, "https".toList, "shttp".toList, "rtsp".toList,
   "rtspu".toList, "sip".toList, "sips".toList, "mms".toList,
   "sftp".toList, "tel".toList]

/-- `urllib.parse._splitparams` restricted to its first component: cut the
path at the first `;` occurring in its last segment. -/
def splitParams (path : List Char) : List Char :=
  if path.contains '/' then
    let k := (path.reverse.takeWhile (fun c => c != '/')).length
    let start := path.length - 1 - k
    let tailPart := path.drop start
    let j := (tailPart.takeWhile (fun c => c != ';')).length
    if j < tailPart.length then path.take (start + j) else path
  else
    path.takeWhile (fun c => c != ';')

/-- `urllib.parse.urlparse(url).path`: detect and strip the scheme, strip
the `//netloc` part, cut off fragment and query, and for schemes in
`uses_params` strip the `;parameters` of the last segment. -/
def urlparse_path (url : List Char) : List Char :=
  let pre := url.takeWhile (fun c => c != ':')
  let schemeOk := pre.length < url.length && !pre.isEmpty
      && isAsciiAlpha (pre.headD ' ') && (pre.drop 1).all isSchemeChar
  let scheme := if schemeOk then pyLower pre else []
  let rest := if schemeOk then url.drop (pre.length + 1) else url
  let rest := if ['/', '/'].isPrefixOf rest then
      (rest.drop 2).dropWhile (fun c => c != '/' && c != '?' && c != '#')
    else rest
  let rest := rest.takeWhile (fun c => c != '#')
  let rest := rest.takeWhile (fun c => c != '?')
  if scheme ∈ uses_params ∧ rest.contains ';' then splitParams rest else rest

/-- `os.path.basename` for the paths occurring here: the part after the
last path separator (`/`, or the backslash which `ntpath` also treats as
a separator; `urlparse(url).path` carries no drive letter in this
pipeline). -/
def os_path_basename (p : List Char) : List Char :=
  (p.reverse.takeWhile (fun c => c != '/' && c != bslash)).reverse

/-- Lines 62-64: if no filename (or no dot in it) was extracted, use the
synthesized `image_{hash(url)}.png` name; `hrep` is the decimal text of
the run-dependent `hash(url)`. -/
def baseOrHash (hrep filename : List Char) : List Char :=
  if filename.isEmpty || !(filename.contains '.') then
    "image_".toList ++ hrep ++ ".png".toList
  else filename

/-- Lines 66-68: make sure the filename ends with `.png`. -/
def fixExt (filename : List Char) : List Char :=
  if pyEndsWith filename pngExt then filename else filename ++ pngExt

/-- The local-filename derivation of `download_image` (lines 58-68). -/
def deriveFilename (hrep url : List Char) : List Char :=
  fixExt (baseOrHash hrep (os_path_basename (urlparse_path url)))

theorem pyEndsWith_append (l : List Char) :
    pyEndsWith (l ++ pngExt) pngExt = true :=
  (pyEndsWith_iff_suffix _ _).mpr (List.suffix_append l pngExt)

theorem fixExt_endsWith (f : List Char) :
    pyEndsWith (fixExt f) pngExt = true := by
  unfold fixExt
  by_cases h : pyEndsWith f pngExt = true
  · rw [if_pos h]; exact h
  · rw [if_neg h]; exact pyEndsWith_append f

theorem deriveFilename_endsWith (hrep url : List Char) :
    pyEndsWith (deriveFilename hrep url) pngExt = true :=
  fixExt_endsWith _

theorem deriveFilename_ne_nil (hrep url : List Char) :
    deriveFilename hrep url ≠ [] := by
  have h := deriveFilename_endsWith hrep url
  rw [pyEndsWith_iff_suffix] at h
  intro hnil
  rw [hnil] at h
  have := h.length_le
  simp [pngExt] at this

/-- C4: the local filename is the URL path's basename
(`https://host/path/pic.png` gives `pic.png`); a URL with no extractable
filename segment (`https://host/path/`) gets the synthesized
`image_{hash}.png` name containing the hash token; and for every URL the
derived filename is non-empty and ends in `.png`. -/
theorem c4_filename_derivation (hrep url : List Char) :
    deriveFilename hrep ("https://host/path/pic.png".toList) = "pic.png".toList
  ∧ deriveFilename hrep ("https://host/path/".toList) =
      "image_".toList ++ hrep ++ ".png".toList
  ∧ deriveFilename hrep url ≠ []
  ∧ pyEndsWith (deriveFilename hrep url) pngExt = true := by
  refine ⟨rfl, ?_, deriveFilename_ne_nil hrep url, deriveFilename_endsWith hrep url⟩
  have hbase : os_path_basename (urlparse_path ("https://host/path/".toList)) = [] := by
    decide
  unfold deriveFilename
  rw [hbase]
  have hb : baseOrHash hrep [] = "image_".toList ++ hrep ++ ".png".toList := by
    simp [baseOrHash]
  rw [hb]
  have : "image_".toList ++ hrep ++ ".png".toList =
      ("image_".toList ++ hrep) ++ pngExt := by
    rw [List.append_assoc]; rfl
  rw [this]
  unfold fixExt
  rw [if_pos (pyEndsWith_append _)]

/-- Witness for C4 at the hash text `123` and the URL `https://host/c.PNG`. -/
theorem c4_witness :
    deriveFilename ("123".toList) ("https://host/path/pic.png".toList) = "pic.png".toList
  ∧ deriveFilename ("123".toList) ("https://host/path/".toList) =
      "image_".toList ++ "123".toList ++ ".png".toList
  ∧ deriveFilename ("123".toList) ("https://host/c.PNG".toList) ≠ []
  ∧ pyEndsWith (deriveFilename ("123".toList) ("https://host/c.PNG".toList)) pngExt = true :=
  c4_filename_derivation ("123".toList) ("https://host/c.PNG".toList)

theorem lowerChar_eq_dot (c : Char) (h : lowerChar c = '.') : c = '.' := by
  unfold lowerChar at h
  split at h <;> first
    | exact h
    | exact absurd h (by decide)

/-- C10: the `.png` suffix check of the filename derivation is
case-sensitive — whenever the URL path's basename ends in an upper- or
mixed-case variant of the extension (its lower-casing ends in `.png` but
the basename itself does not), the derived filename is the basename with
a further lowercase `.png` appended. -/
theorem c10_uppercase_extension_appended (hrep url : List Char)
    (h1 : pyEndsWith (pyLower (os_path_basename (urlparse_path url))) pngExt = true)
    (h2 : pyEndsWith (os_path_basename (urlparse_path url)) pngExt = false) :
    deriveFilename hrep url = os_path_basename (urlparse_path url) ++ pngExt := by
  set fn := os_path_basename (urlparse_path url) with hfn
  rw [pyEndsWith_iff_suffix] at h1
  obtain ⟨t, ht⟩ := h1
  have hdrop : pyLower (fn.drop t.length) = pngExt := by
    rw [pyLower, List.map_drop, ← pyLower, ← ht, List.drop_left]
  have hdot : '.' ∈ fn := by
    cases hd : fn.drop t.length with
    | nil => rw [hd] at hdrop; simp [pyLower, pngExt] at hdrop
    | cons a d' =>
      rw [hd] at hdrop
      simp only [pyLower, List.map_cons, pngExt, List.cons.injEq] at hdrop
      have ha : a = '.' := lowerChar_eq_dot a hdrop.1
      have hmem : a ∈ fn.drop t.length := by
        rw [hd]; exact List.mem_cons_self a d'
      have : a ∈ fn := (List.drop_suffix t.length fn).mem hmem
      rw [ha] at this
      exact this
  have hne : fn ≠ [] := List.ne_nil_of_mem hdot
  have hcont : fn.contains '.' = true := List.elem_iff.mpr hdot
  unfold deriveFilename
  have hb : baseOrHash hrep fn = fn := by
    unfold baseOrHash
    rw [if_neg]
    simp [List.isEmpty_iff, hne, hcont, hdot]
  rw [hb]
  unfold fixExt
  rw [if_neg]
  simp [h2]

/-- Witness for C10 at the URL `https://host/c.PNG`, whose derived
filename is `c.PNG.png`. -/
theorem c10_witness :
    deriveFilename ("123".toList) ("https://host/c.PNG".toList) =
      os_path_basename (urlparse_path ("https://host/c.PNG".toList)) ++ pngExt :=
  c10_uppercase_extension_appended ("123".toList) ("https://host/c.PNG".toList)
    (by decide) (by decide)

/-!
The rewriter's substitution (`replace_image_urls`, lines 101-111).
Python `str.replace` replaces every non-overlapping occurrence, scanning
left to right; `replaceFuel` realises the scan with fuel bounded by the
input length, and `splitFuel` is the corresponding `str.split`, used to
state that the substitution is exactly a split into occurrence-free
pieces rejoined by the replacement text.
-/

/-- The scan of Python `content.replace(old, new)` for non-empty
`old = oh :: ot`, with fuel. -/
def replaceFuel (oh : Char) (ot new : List Char) : Nat → List Char → List Char
  | 0, l => l
  | _ + 1, [] => []
  | n + 1, c :: rest =>
    if (oh :: ot).isPrefixOf (c :: rest) then
      new ++ replaceFuel oh ot new n (rest.drop ot.length)
    else
      c :: replaceFuel oh ot new n rest

/-- Python `s.replace(old, new)`.  For empty `old` Python inserts `new`
before every character and at the end; the script only ever replaces
non-empty URL strings. -/
def pyReplace (s old new : List Char) : List Char :=
  match old with
  | [] => new ++ s.foldr (fun c acc => c :: (new ++ acc)) []
  | oh :: ot => replaceFuel oh ot new s.length s

/-- The scan of Python `s.split(old)` for non-empty `old`, with fuel. -/
def splitFuel (oh : Char) (ot : List Char) : Nat → List Char → List (List Char)
  | 0, l => [l]
  | _ + 1, [] => [[]]
  | n + 1, c :: rest =>
    if (oh :: ot).isPrefixOf (c :: rest) then
      [] :: splitFuel oh ot n (rest.drop ot.length)
    else
      match splitFuel oh ot n rest with
      | [] => [[c]]
      | p :: ps => (c :: p) :: ps

/-- Python `s.split(old)` for non-empty `old` (for empty `old` Python
raises `ValueError`; that case is never reached here). -/
def pySplit (s old : List Char) : List (List Char) :=
  match old with
  | [] => [s]
  | oh :: ot => splitFuel oh ot s.length s

/-- Join a list of pieces with a separator (Python `sep.join(pieces)`). -/
def joinWith (sep : List Char) : List (List Char) → List Char
  | [] => []
  | [p] => p
  | p :: ps => p ++ sep ++ joinWith sep ps

theorem splitFuel_ne_nil (oh : Char) (ot : List Char) :
    ∀ (n : Nat) (l : List Char), splitFuel oh ot n l ≠ [] := by
  intro n l
  match n, l with
  | 0, l => simp [splitFuel]
  | _ + 1, [] => simp [splitFuel]
  | n + 1, c :: rest =>
    simp only [splitFuel]
    split
    · simp
    · split <;> simp

theorem replaceFuel_eq_joinWith (oh : Char) (ot new : List Char) :
    ∀ (n : Nat) (l : List Char), l.length ≤ n →
      replaceFuel oh ot new n l = joinWith new (splitFuel oh ot n l) := by
  intro n
  induction n with
  | zero =>
    intro l hl
    have : l = [] := List.length_eq_zero.mp (Nat.le_zero.mp hl)
    subst this
    simp [replaceFuel, splitFuel, joinWith]
  | succ n ih =>
    intro l hl
    cases l with
    | nil => simp [replaceFuel, splitFuel, joinWith]
    | cons c rest =>
      have hrest : rest.length ≤ n := by
        have := List.length_cons c rest
        omega
      simp only [replaceFuel, splitFuel]
      split
      · cases hsp : splitFuel oh ot n (rest.drop ot.length) with
        | nil => exact absurd hsp (splitFuel_ne_nil oh ot n _)
        | cons q qs =>
          have hdl : (rest.drop ot.length).length ≤ n := by
            rw [List.length_drop]
            omega
          have ih' := ih (rest.drop ot.length) hdl
          rw [hsp] at ih'
          simp only [joinWith, List.nil_append]
          exact congrArg (new ++ ·) ih'
      · cases hsp : splitFuel oh ot n rest with
        | nil => exact absurd hsp (splitFuel_ne_nil oh ot n _)
        | cons p ps =>
          have ih' := ih rest hrest
          rw [hsp] at ih'
          cases ps with
          | nil =>
            simp only [joinWith] at ih' ⊢
            rw [ih']
          | cons p2 ps2 =>
            simp only [joinWith] at ih' ⊢
            rw [ih']
            simp [List.append_assoc]

theorem splitFuel_head_isPre (oh : Char) (ot : List Char) :
    ∀ (n : Nat) (l : List Char) (p : List Char) (ps : List (List Char)),
      splitFuel oh ot n l = p :: ps → p <+: l := by
  intro n
  induction n with
  | zero =>
    intro l p ps h
    simp only [splitFuel] at h
    cases h
    exact List.prefix_refl l
  | succ n ih =>
    intro l p ps h
    cases l with
    | nil =>
      simp only [splitFuel] at h
      cases h
      exact List.prefix_refl []
    | cons c rest =>
      simp only [splitFuel] at h
      split at h
      · cases h
        exact ⟨c :: rest, rfl⟩
      · rename_i hnp
        cases hsp : splitFuel oh ot n rest with
        | nil => exact absurd hsp (splitFuel_ne_nil oh ot n rest)
        | cons pp pps =>
          rw [hsp] at h
          have hp' : p = c :: pp := (((List.cons.injEq _ _ _ _).mp h).1).symm
          subst hp'
          obtain ⟨t, ht⟩ := ih rest pp pps hsp
          exact ⟨t, by rw [List.cons_append, ht]⟩

theorem splitFuel_pieces_free (oh : Char) (ot : List Char) :
    ∀ (n : Nat) (l : List Char), l.length ≤ n →
      ∀ p ∈ splitFuel oh ot n l, ¬ ((oh :: ot) <:+: p) := by
  intro n
  induction n with
  | zero =>
    intro l hl p hp hinf
    have : l = [] := List.length_eq_zero.mp (Nat.le_zero.mp hl)
    subst this
    simp only [splitFuel, List.mem_singleton] at hp
    subst hp
    have := List.eq_nil_of_infix_nil hinf
    cases this
  | succ n ih =>
    intro l hl p hp hinf
    cases l with
    | nil =>
      simp only [splitFuel, List.mem_singleton] at hp
      subst hp
      have := List.eq_nil_of_infix_nil hinf
      cases this
    | cons c rest =>
      have hrest : rest.length ≤ n := by
        have := List.length_cons c rest
        omega
      simp only [splitFuel] at hp
      split at hp
      · rcases List.mem_cons.mp hp with hp | hp
        · subst hp
          have := List.eq_nil_of_infix_nil hinf
          cases this
        · have hdl : (rest.drop ot.length).length ≤ n := by
            rw [List.length_drop]
            omega
          exact ih (rest.drop ot.length) hdl p hp hinf
      · rename_i hnp
        cases hsp : splitFuel oh ot n rest with
        | nil => exact absurd hsp (splitFuel_ne_nil oh ot n rest)
        | cons pp pps =>
          rw [hsp] at hp
          rcases List.mem_cons.mp hp with hp | hp
          · subst hp
            rcases List.infix_cons_iff.mp hinf with hpre | hinf'
            · have hp1 : (c :: pp) <+: (c :: rest) := by
                obtain ⟨t, ht⟩ := splitFuel_head_isPre oh ot n rest pp pps hsp
                exact ⟨t, by rw [List.cons_append, ht]⟩
              have : (oh :: ot) <+: (c :: rest) := hpre.trans hp1
              exact hnp ( List.isPrefixOf_iff_prefix.mpr this)
            · have hppmem : pp ∈ splitFuel oh ot n rest := by
                rw [hsp]; exact List.mem_cons_self pp pps
              exact ih rest hrest pp hppmem hinf'
          · exact ih rest hrest p (by rw [hsp]; exact List.mem_cons_of_mem pp hp) hinf

theorem pyReplace_eq_joinWith (s old new : List Char) (h : old ≠ []) :
    pyReplace s old new = joinWith new (pySplit s old) := by
  cases old with
  | nil => exact absurd rfl h
  | cons oh ot =>
    simp only [pyReplace, pySplit]
    exact replaceFuel_eq_joinWith oh ot new s.length s (Nat.le_refl _)

theorem pySplit_pieces_free (s old : List Char) (h : old ≠ []) :
    ∀ p ∈ pySplit s old, pyContains p old = false := by
  cases old with
  | nil => exact absurd rfl h
  | cons oh ot =>
    intro p hp
    have hni := splitFuel_pieces_free oh ot s.length s (Nat.le_refl _) p hp
    cases hc : pyContains p (oh :: ot) with
    | false => rfl
    | true => exact absurd ((pyContains_spec p (oh :: ot)).mp hc) hni

/-- Python truthiness of the `Optional[str]` mapping values (line 108's
`if local_filename:`): `None` and the empty string are falsy. -/
def truthyName : Option (List Char) → Bool
  | none => false
  | some s => !s.isEmpty

/-- The relative-path text `./downloaded_images/` prepended at line 109. -/
def localDirStr : List Char := "./downloaded_images/".toList

/-- The substitution loop of `replace_image_urls` (lines 107-110): for
each mapping entry with a truthy local filename, replace every
occurrence of the remote URL by `./downloaded_images/<filename>`;
iteration order is the dict's insertion order. -/
def rewriteContent (content : List Char)
    (mapping : List (List Char × Option (List Char))) : List Char :=
  mapping.foldl
    (fun c p =>
      if truthyName p.2 then
        pyReplace c p.1 (localDirStr ++ p.2.getD [])
      else c)
    content

/-- First URL of the C5 counterexample. -/
def cexU1 : List Char := "http://a/./downloaded_images/p.png".toList

/-- Second URL of the C5 counterexample. -/
def cexU2 : List Char := "http://b/p.png".toList

/-- Local filename of both counterexample downloads. -/
def cexFn : List Char := "p.png".toList

/-- The counterexample mapping: both URLs downloaded successfully. -/
def cexMapping : List (List Char × Option (List Char)) :=
  [(cexU1, some cexFn), (cexU2, some cexFn)]

/-- The counterexample document: both URLs appear as img src values, and
the text also contains `http://a/` immediately followed by the second
URL, so that substituting the second URL re-creates the first one. -/
def cexDoc : List Char :=
  ("<img src=\"http://a/./downloaded_images/p.png\">"
    ++ "<img src=\"http://b/p.png\"> see http://a/http://b/p.png").toList

/-- C5 fails as stated: in `cexDoc` with `cexMapping` every entry is a
successful download, yet after `replace_image_urls`'s substitution loop
the document still contains the successfully-downloaded URL `cexU1` —
replacing `cexU2` by `./downloaded_images/p.png` re-creates an
occurrence of `cexU1`. -/
theorem c5_counterexample :
    (cexU1, some cexFn) ∈ cexMapping
  ∧ truthyName (some cexFn) = true
  ∧ pyContains (rewriteContent cexDoc cexMapping) cexU1 = true := by
  refine ⟨by decide, by decide, by decide⟩

/-- C5 (amended): the rewriter never substitutes entries mapped to null
(a mapping of only-null entries leaves the document unchanged); for a
successful entry with non-empty filename the substitution is exactly a
split of the document into pieces free of the remote URL, rejoined by
`./downloaded_images/<filename>` — every occurrence present at that step
is replaced — but a later entry's substitution may itself re-create an
occurrence of an earlier successfully-downloaded URL (see
`c5_counterexample`), so the final document need not be free of all
successfully-downloaded URL strings. -/
theorem c5_amended_rewrite (content u f : List Char)
    (mapping : List (List Char × Option (List Char)))
    (hu : u ≠ []) (hf : f ≠ []) :
    ((∀ p ∈ mapping, p.2 = none) → rewriteContent content mapping = content)
  ∧ rewriteContent content [(u, some f)] =
      joinWith (localDirStr ++ f) (pySplit content u)
  ∧ ∀ piece ∈ pySplit content u, pyContains piece u = false := by
  refine ⟨?_, ?_, pySplit_pieces_free content u hu⟩
  · intro hnone
    induction mapping generalizing content with
    | nil => rfl
    | cons q qs ih =>
      have hq : q.2 = none := hnone q (List.mem_cons_self q qs)
      simp only [rewriteContent, List.foldl_cons, hq, truthyName]
      exact ih content (fun p hp => hnone p (List.mem_cons_of_mem q hp))
  · have htr : truthyName (some f) = true := by
      simp [truthyName, List.isEmpty_iff, hf]
    simp only [rewriteContent, List.foldl_cons, htr, if_pos, List.foldl_nil,
      Option.getD_some]
    exact pyReplace_eq_joinWith content u (localDirStr ++ f) hu

/-- Witness for the amended C5 at a concrete document and mapping. -/
theorem c5_amended_witness :
    ((∀ p ∈ ([(cexU2, none)] : List (List Char × Option (List Char))),
        p.2 = none) →
      rewriteContent ("x http://b/p.png y".toList) [(cexU2, none)] =
        "x http://b/p.png y".toList)
  ∧ rewriteContent ("x http://b/p.png y".toList) [(cexU2, some cexFn)] =
      joinWith (localDirStr ++ cexFn) (pySplit ("x http://b/p.png y".toList) cexU2)
  ∧ ∀ piece ∈ pySplit ("x http://b/p.png y".toList) cexU2,
      pyContains piece cexU2 = false :=
  c5_amended_rewrite ("x http://b/p.png y".toList) cexU2 cexFn
    [(cexU2, none)] (by decide) (by decide)

/-!
The resilient fetch (`download_image`, lines 36-56).  The transport
`session.get` is an oracle mapping the bound keyword arguments to either
an exception or a response.  Binding the keyword arguments of
`session.get(url, timeout=30, **ssl_config)` itself raises `TypeError`
("got multiple values for keyword argument") whenever `ssl_config`
carries its own `timeout`, before any request is made — which is the
case for the third entry of `ssl_options`.
-/

/-- Python exception kinds distinguished by the model. -/
inductive PyErr where
  | typeError
  | connectionError
  | sslError
  | httpError (code : Nat)
  | ioError
  | other
deriving DecidableEq

/-- An HTTP response: status code and body bytes. -/
structure HttpResponse where
  status : Nat
  content : List Char
deriving DecidableEq

/-- The keyword arguments that reach `requests.Session.get` once `**`
expansion succeeded. -/
structure GetArgs where
  verify : Bool
  timeout : Nat
deriving DecidableEq

/-- One entry of `ssl_options` (lines 40-44). -/
structure SSLConfig where
  verify : Bool
  timeout : Option Nat
deriving DecidableEq

/-- `ssl_options` (lines 40-44): default verification; verification
disabled; verification with a 60-second timeout. -/
def ssl_options : List SSLConfig :=
  [⟨true, none⟩, ⟨false, none⟩, ⟨true, some 60⟩]

/-- Argument binding of `session.get(url, timeout=30, **ssl_config)`
(line 49): a config carrying its own `timeout` duplicates the explicit
`timeout=30` keyword and raises `TypeError` at the call site; otherwise
the request carries the 30-second timeout and the config's `verify`. -/
def bindGetArgs (cfg : SSLConfig) : Except PyErr GetArgs :=
  if cfg.timeout.isSome then Except.error PyErr.typeError
  else Except.ok { verify := cfg.verify, timeout := 30 }

/-- `response.raise_for_status()` (line 50): raise on status &ge; 400. -/
def raise_for_status (r : HttpResponse) : Except PyErr HttpResponse :=
  if 400 ≤ r.status then Except.error (PyErr.httpError r.status) else Except.ok r

/-- One iteration of the loop body (lines 47-50) under one SSL config,
with transport oracle `get`. -/
def attemptConfig (get : GetArgs → Except PyErr HttpResponse)
    (cfg : SSLConfig) : Except PyErr HttpResponse :=
  match bindGetArgs cfg with
  | Except.error e => Except.error e
  | Except.ok args =>
    match get args with
    | Except.error e => Except.error e
    | Except.ok r => raise_for_status r

/-- The fallback loop (lines 46-56): try the configs in order; any
exception advances to the next config (after the 1-second pause of line
56); the exception of the last config is re-raised.  The `[]` case is
unreachable: the loop is only ever run on `ssl_options`. -/
def tryConfigs (get : GetArgs → Except PyErr HttpResponse) :
    List SSLConfig → Except PyErr HttpResponse
  | [] => Except.error PyErr.other
  | [cfg] => attemptConfig get cfg
  | cfg :: cfgs =>
    match attemptConfig get cfg with
    | Except.ok r => Except.ok r
    | Except.error _ => tryConfigs get cfgs

/-- The whole fetch of `download_image` (lines 40-56). -/
def fetchFallback (get : GetArgs → Except PyErr HttpResponse) :
    Except PyErr HttpResponse :=
  tryConfigs get ssl_options

/-- C1 fails on the code (code bug): the third fallback configuration
passes `timeout=60` on top of the explicit `timeout=30`, so its
`session.get` call always raises `TypeError` before any request — the
extended-timeout request is never issued, and when the first two
configurations fail the fetch always propagates `TypeError`, for every
behaviour of the transport. -/
theorem c1_third_config_type_error (get : GetArgs → Except PyErr HttpResponse)
    (e1 e2 : PyErr)
    (h1 : attemptConfig get ⟨true, none⟩ = Except.error e1)
    (h2 : attemptConfig get ⟨false, none⟩ = Except.error e2) :
    attemptConfig get ⟨true, some 60⟩ = Except.error PyErr.typeError
  ∧ fetchFallback get = Except.error PyErr.typeError := by
  refine ⟨rfl, ?_⟩
  show tryConfigs get ssl_options = Except.error PyErr.typeError
  simp only [ssl_options, tryConfigs, h1, h2]
  rfl

/-- Witness for C1 with a transport that always raises a connection
error. -/
theorem c1_witness :
    attemptConfig (fun _ => Except.error PyErr.connectionError) ⟨true, some 60⟩ =
      Except.error PyErr.typeError
  ∧ fetchFallback (fun _ => Except.error PyErr.connectionError) =
      Except.error PyErr.typeError :=
  c1_third_config_type_error (fun _ => Except.error PyErr.connectionError)
    PyErr.connectionError PyErr.connectionError rfl rfl

/-!
File-system model and the fixed paths of `main` (lines 123-134).  A file
system is an association list from path to content; `pathlib` path
arithmetic is modelled over `/`-separated text (the separator rendering
is immaterial to every claim).
-/

/-- `current_dir` (line 125). -/
def currentDirStr : List Char :=
  "D:/Code/Demo/github上demo仓库/Demo/DataJarvis".toList

/-- `download_dir = current_dir / "downloaded_images"` (line 127). -/
def downloadDirStr : List Char := currentDirStr ++ "/downloaded_images".toList

/-- `html_file = current_dir / "index.html"` (line 134). -/
def htmlPathStr : List Char := currentDirStr ++ "/index.html".toList

/-- The length of `pathlib`'s `suffix` of a file name: the part from the
last dot, provided the dot is neither the first nor the last character. -/
def pathSuffixLen (name : List Char) : Nat :=
  let k := (name.reverse.takeWhile (fun c => c != '.')).length
  if k < name.length ∧ 0 < k ∧ k + 1 < name.length then k + 1 else 0

/-- `pathlib.PurePath.with_suffix`: replace the name's suffix (or append,
when the name has none) by `newSuf`. -/
def pathWithSuffix (p newSuf : List Char) : List Char :=
  p.take (p.length - pathSuffixLen (os_path_basename p)) ++ newSuf

/-- `backup_file = html_file.with_suffix('.html.backup')` (line 114). -/
def backupPathStr : List Char := pathWithSuffix htmlPathStr (".html.backup".toList)

/-- `os.path.join(download_dir, filename)` (line 70). -/
def imagePath (fn : List Char) : List Char := downloadDirStr ++ ('/' :: fn)

/-- Read a file's content. -/
def fsGet : List (List Char × List Char) → List Char → Option (List Char)
  | [], _ => none
  | (p, c) :: rest, q => if q = p then some c else fsGet rest q

/-- Write a file (create or overwrite). -/
def fsSet : List (List Char × List Char) → List Char → List Char →
    List (List Char × List Char)
  | [], p, c => [(p, c)]
  | (p0, c0) :: rest, p, c =>
    if p = p0 then (p0, c) :: rest else (p0, c0) :: fsSet rest p c

/-- Delete a file. -/
def fsRemove : List (List Char × List Char) → List Char →
    List (List Char × List Char)
  | [], _ => []
  | (p0, c0) :: rest, p => if p = p0 then rest else (p0, c0) :: fsRemove rest p

/-- `os.rename(src, dst)`: move the content of `src` to `dst`,
overwriting `dst` (the move semantics the spec ascribes to the source);
callers establish that `src` exists. -/
def fsRename (fs : List (List Char × List Char)) (src dst : List Char) :
    List (List Char × List Char) :=
  match fsGet fs src with
  | none => fs
  | some c => fsSet (fsRemove fs src) dst c

theorem fsGet_fsSet_self (fs : List (List Char × List Char)) (p c : List Char) :
    fsGet (fsSet fs p c) p = some c := by
  induction fs with
  | nil => simp [fsSet, fsGet]
  | cons q rest ih =>
    obtain ⟨p0, c0⟩ := q
    simp only [fsSet]
    by_cases h : p = p0
    · subst h; simp [fsGet]
    · rw [if_neg h]
      simp only [fsGet, if_neg h]
      exact ih

theorem fsGet_fsSet_ne (fs : List (List Char × List Char)) (p c q : List Char)
    (h : q ≠ p) : fsGet (fsSet fs p c) q = fsGet fs q := by
  induction fs with
  | nil => simp [fsSet, fsGet, h]
  | cons e rest ih =>
    obtain ⟨p0, c0⟩ := e
    simp only [fsSet]
    by_cases h0 : p = p0
    · subst h0
      simp only [fsGet, if_neg h]
    · rw [if_neg h0]
      simp only [fsGet]
      by_cases hq : q = p0
      · simp [hq]
      · simp only [if_neg hq]
        exact ih

theorem fsGet_fsRemove_ne (fs : List (List Char × List Char)) (p q : List Char)
    (h : q ≠ p) : fsGet (fsRemove fs p) q = fsGet fs q := by
  induction fs with
  | nil => simp [fsRemove]
  | cons e rest ih =>
    obtain ⟨p0, c0⟩ := e
    simp only [fsRemove]
    by_cases h0 : p = p0
    · subst h0
      simp only [fsGet, if_neg h]
      simp
    · rw [if_neg h0]
      simp only [fsGet]
      by_cases hq : q = p0
      · simp [hq]
      · simp only [if_neg hq]
        exact ih

/-!
The download phase: `download_image` (lines 34-82) and the loop of
`main` (lines 159-162) that builds the `url_mapping` dict.
-/

/-- One `download_image` call (lines 34-82): run the fallback fetch; on
success derive the local filename and return it with the body bytes; any
exception is caught and yields `None` (lines 79-82). -/
def download_image_run (get : GetArgs → Except PyErr HttpResponse)
    (hrep url : List Char) : Option (List Char × List Char) :=
  match fetchFallback get with
  | Except.ok r => some (deriveFilename hrep url, r.content)
  | Except.error _ => none

theorem download_image_run_some (get : GetArgs → Except PyErr HttpResponse)
    (hrep url fn bytes : List Char)
    (h : download_image_run get hrep url = some (fn, bytes)) :
    fn = deriveFilename hrep url := by
  unfold download_image_run at h
  cases hf : fetchFallback get with
  | ok r =>
    rw [hf] at h
    cases h
    rfl
  | error e =>
    rw [hf] at h
    cases h

/-- A Python dict assignment `d[k] = v`: replace the value of an existing
key in place, else append the new key; insertion order is preserved. -/
def dictSet : List (List Char × Option (List Char)) → List Char →
    Option (List Char) → List (List Char × Option (List Char))
  | [], k, v => [(k, v)]
  | (k0, v0) :: rest, k, v =>
    if k = k0 then (k0, v) :: rest else (k0, v0) :: dictSet rest k v

/-- Python `d.get(k)` distinguishing a missing key (`none`) from a key
mapped to `None` (`some none`). -/
def pyGet : List (List Char × Option (List Char)) → List Char →
    Option (Option (List Char))
  | [], _ => none
  | (k0, v0) :: rest, k => if k = k0 then some v0 else pyGet rest k

/-- The keys of the mapping, in insertion order. -/
def urlKeys (d : List (List Char × Option (List Char))) : List (List Char) :=
  d.map Prod.fst

/-- The download loop of `main` (lines 159-162) together with the file
writes of `download_image` (lines 70-74): `oracle i` is the transport
behaviour during the `i`-th call, `hashFn url` the decimal text of the
run-dependent `hash(url)`. -/
def downloadAllFS (oracle : Nat → GetArgs → Except PyErr HttpResponse)
    (hashFn : List Char → List Char) :
    Nat →
    List (List Char × List Char) × List (List Char × Option (List Char)) →
    List (List Char) →
    List (List Char × List Char) × List (List Char × Option (List Char))
  | _, acc, [] => acc
  | i, (fs, d), url :: rest =>
    match download_image_run (oracle i) (hashFn url) url with
    | some (fn, bytes) =>
        downloadAllFS oracle hashFn (i + 1)
          (fsSet fs (imagePath fn) bytes, dictSet d url (some fn)) rest
    | none => downloadAllFS oracle hashFn (i + 1) (fs, dictSet d url none) rest

/-- The mapping value recorded for a call at position `i` on `url`. -/
def dlResult (oracle : Nat → GetArgs → Except PyErr HttpResponse)
    (hashFn : List Char → List Char) (i : Nat) (url : List Char) :
    Option (List Char) :=
  (download_image_run (oracle i) (hashFn url) url).map Prod.fst

theorem pyGet_dictSet_self (d : List (List Char × Option (List Char)))
    (k : List Char) (v : Option (List Char)) :
    pyGet (dictSet d k v) k = some v := by
  induction d with
  | nil => simp [dictSet, pyGet]
  | cons e rest ih =>
    obtain ⟨k0, v0⟩ := e
    simp only [dictSet]
    by_cases h : k = k0
    · subst h; simp [pyGet]
    · rw [if_neg h]
      simp only [pyGet, if_neg h]
      exact ih

theorem pyGet_dictSet_ne (d : List (List Char × Option (List Char)))
    (k : List Char) (v : Option (List Char)) (k' : List Char) (h : k' ≠ k) :
    pyGet (dictSet d k v) k' = pyGet d k' := by
  induction d with
  | nil => simp [dictSet, pyGet, h]
  | cons e rest ih =>
    obtain ⟨k0, v0⟩ := e
    simp only [dictSet]
    by_cases h0 : k = k0
    · subst h0
      simp only [pyGet, if_neg h]
    · rw [if_neg h0]
      simp only [pyGet]
      by_cases hq : k' = k0
      · simp [hq]
      · simp only [if_neg hq]
        exact ih

theorem pyGet_isSome_of_mem_keys (d : List (List Char × Option (List Char)))
    (w : List Char) (h : w ∈ urlKeys d) : (pyGet d w).isSome = true := by
  induction d with
  | nil => simp [urlKeys] at h
  | cons e rest ih =>
    obtain ⟨k0, v0⟩ := e
    simp only [urlKeys, List.map_cons, List.mem_cons] at h
    simp only [pyGet]
    by_cases hw : w = k0
    · simp [hw]
    · rw [if_neg hw]
      rcases h with h | h
      · exact absurd h hw
      · exact ih h

theorem urlKeys_dictSet_mem (d : List (List Char × Option (List Char)))
    (k : List Char) (v : Option (List Char)) (w : List Char) :
    w ∈ urlKeys (dictSet d k v) ↔ w ∈ urlKeys d ∨ w = k := by
  induction d with
  | nil => simp [dictSet, urlKeys]
  | cons e rest ih =>
    obtain ⟨k0, v0⟩ := e
    simp only [dictSet]
    by_cases h : k = k0
    · subst h
      rw [if_pos rfl]
      simp only [urlKeys, List.map_cons, List.mem_cons]
      constructor
      · rintro (h | h)
        · exact Or.inl (Or.inl h)
        · exact Or.inl (Or.inr h)
      · rintro ((h | h) | h)
        · exact Or.inl h
        · exact Or.inr h
        · exact Or.inl h
    · rw [if_neg h]
      simp only [urlKeys, List.map_cons, List.mem_cons] at ih ⊢
      rw [ih]
      tauto

theorem urlKeys_dictSet_nodup (d : List (List Char × Option (List Char)))
    (k : List Char) (v : Option (List Char)) (h : (urlKeys d).Nodup) :
    (urlKeys (dictSet d k v)).Nodup := by
  induction d with
  | nil => simp [dictSet, urlKeys]
  | cons e rest ih =>
    obtain ⟨k0, v0⟩ := e
    simp only [urlKeys, List.map_cons, List.nodup_cons] at h
    simp only [dictSet]
    by_cases hk : k = k0
    · subst hk
      rw [if_pos rfl]
      simp only [urlKeys, List.map_cons, List.nodup_cons]
      exact h
    · rw [if_neg hk]
      simp only [urlKeys, List.map_cons, List.nodup_cons]
      constructor
      · intro hc
        rcases (urlKeys_dictSet_mem rest k v k0).mp hc with hc | hc
        · exact h.1 hc
        · exact hk hc.symm
      · exact ih h.2

theorem downloadAllFS_mem_keys (oracle : Nat → GetArgs → Except PyErr HttpResponse)
    (hashFn : List Char → List Char) :
    ∀ (l : List (List Char)) (i : Nat) (fs : List (List Char × List Char))
      (d : List (List Char × Option (List Char))) (w : List Char),
      w ∈ urlKeys (downloadAllFS oracle hashFn i (fs, d) l).2 ↔
        w ∈ urlKeys d ∨ w ∈ l := by
  intro l
  induction l with
  | nil =>
    intro i fs d w
    simp [downloadAllFS]
  | cons url rest ih =>
    intro i fs d w
    simp only [downloadAllFS]
    cases hdl : download_image_run (oracle i) (hashFn url) url with
    | some pr =>
      obtain ⟨fn, bytes⟩ := pr
      rw [ih (i + 1) _ (dictSet d url (some fn)) w,
        urlKeys_dictSet_mem d url (some fn) w]
      simp [List.mem_cons]
      tauto
    | none =>
      rw [ih (i + 1) _ (dictSet d url none) w,
        urlKeys_dictSet_mem d url none w]
      simp [List.mem_cons]
      tauto

theorem downloadAllFS_keys_nodup (oracle : Nat → GetArgs → Except PyErr HttpResponse)
    (hashFn : List Char → List Char) :
    ∀ (l : List (List Char)) (i : Nat) (fs : List (List Char × List Char))
      (d : List (List Char × Option (List Char))),
      (urlKeys d).Nodup →
      (urlKeys (downloadAllFS oracle hashFn i (fs, d) l).2).Nodup := by
  intro l
  induction l with
  | nil =>
    intro i fs d h
    simpa [downloadAllFS] using h
  | cons url rest ih =>
    intro i fs d h
    simp only [downloadAllFS]
    cases hdl : download_image_run (oracle i) (hashFn url) url with
    | some pr =>
      obtain ⟨fn, bytes⟩ := pr
      exact ih (i + 1) _ _ (urlKeys_dictSet_nodup d url (some fn) h)
    | none =>
      exact ih (i + 1) _ _ (urlKeys_dictSet_nodup d url none h)

theorem downloadAllFS_notin (oracle : Nat → GetArgs → Except PyErr HttpResponse)
    (hashFn : List Char → List Char) :
    ∀ (l : List (List Char)) (i : Nat) (fs : List (List Char × List Char))
      (d : List (List Char × Option (List Char))) (u : List Char),
      u ∉ l →
      pyGet (downloadAllFS oracle hashFn i (fs, d) l).2 u = pyGet d u := by
  intro l
  induction l with
  | nil =>
    intro i fs d u _
    simp [downloadAllFS]
  | cons url rest ih =>
    intro i fs d u hu
    have hne : u ≠ url := fun h => hu (h ▸ List.mem_cons_self url rest)
    have hrest : u ∉ rest := fun h => hu (List.mem_cons_of_mem url h)
    simp only [downloadAllFS]
    cases hdl : download_image_run (oracle i) (hashFn url) url with
    | some pr =>
      obtain ⟨fn, bytes⟩ := pr
      rw [ih (i + 1) _ _ u hrest, pyGet_dictSet_ne d url (some fn) u hne]
    | none =>
      rw [ih (i + 1) _ _ u hrest, pyGet_dictSet_ne d url none u hne]

theorem downloadAllFS_uniq (oracle : Nat → GetArgs → Except PyErr HttpResponse)
    (hashFn : List Char → List Char) :
    ∀ (pre : List (List Char)) (u : List Char) (post : List (List Char))
      (i : Nat) (fs : List (List Char × List Char))
      (d : List (List Char × Option (List Char))),
      u ∉ pre → u ∉ post →
      pyGet (downloadAllFS oracle hashFn i (fs, d) (pre ++ u :: post)).2 u =
        some (dlResult oracle hashFn (i + pre.length) u) := by
  intro pre
  induction pre with
  | nil =>
    intro u post i fs d _ hpost
    simp only [List.nil_append, downloadAllFS, List.length_nil, Nat.add_zero]
    cases hdl : download_image_run (oracle i) (hashFn u) u with
    | some pr =>
      obtain ⟨fn, bytes⟩ := pr
      rw [downloadAllFS_notin oracle hashFn post (i + 1) _ _ u hpost,
        pyGet_dictSet_self d u (some fn)]
      simp [dlResult, hdl]
    | none =>
      rw [downloadAllFS_notin oracle hashFn post (i + 1) _ _ u hpost,
        pyGet_dictSet_self d u none]
      simp [dlResult, hdl]
  | cons x pre' ih =>
    intro u post i fs d hpre hpost
    have hne : u ≠ x := fun h => hpre (h ▸ List.mem_cons_self x pre')
    have hpre' : u ∉ pre' := fun h => hpre (List.mem_cons_of_mem x h)
    have harith : i + (x :: pre').length = (i + 1) + pre'.length := by
      simp only [List.length_cons]
      omega
    rw [harith]
    simp only [List.cons_append, downloadAllFS]
    cases hdl : download_image_run (oracle i) (hashFn x) x with
    | some pr =>
      obtain ⟨fn, bytes⟩ := pr
      exact ih u post (i + 1) _ (dictSet d x (some fn)) hpre' hpost
    | none =>
      exact ih u post (i + 1) _ (dictSet d x none) hpre' hpost

/-- C3: a URL whose fetch fails after the whole fallback sequence is
mapped to `None` in the `url_mapping` dict, while the batch continues —
every URL of the input list, before or after the failing one, still has
an entry in the returned mapping. -/
theorem c3_failure_never_aborts (oracle : Nat → GetArgs → Except PyErr HttpResponse)
    (hashFn : List Char → List Char) (fs : List (List Char × List Char))
    (pre : List (List Char)) (u : List Char) (post : List (List Char))
    (hpre : u ∉ pre) (hpost : u ∉ post)
    (hfail : dlResult oracle hashFn pre.length u = none) :
    pyGet (downloadAllFS oracle hashFn 0 (fs, []) (pre ++ u :: post)).2 u =
      some none
  ∧ ∀ w ∈ pre ++ u :: post,
      (pyGet (downloadAllFS oracle hashFn 0 (fs, []) (pre ++ u :: post)).2 w).isSome
        = true := by
  constructor
  · have h := downloadAllFS_uniq oracle hashFn pre u post 0 fs [] hpre hpost
    rw [Nat.zero_add] at h
    rw [h, hfail]
  · intro w hw
    refine pyGet_isSome_of_mem_keys _ w ?_
    exact (downloadAllFS_mem_keys oracle hashFn (pre ++ u :: post) 0 fs [] w).mpr
      (Or.inr hw)

/-- C8: the mapping built by the download loop has exactly the input
URLs as keys — each input URL occurs as a key, every key comes from the
input, and textually identical duplicates collapse into one key (the key
list has no duplicates). -/
theorem c8_mapping_completeness (oracle : Nat → GetArgs → Except PyErr HttpResponse)
    (hashFn : List Char → List Char) (fs : List (List Char × List Char))
    (urls : List (List Char)) (w : List Char) :
    (urlKeys (downloadAllFS oracle hashFn 0 (fs, []) urls).2).Nodup
  ∧ (w ∈ urlKeys (downloadAllFS oracle hashFn 0 (fs, []) urls).2 ↔ w ∈ urls) := by
  constructor
  · exact downloadAllFS_keys_nodup oracle hashFn urls 0 fs [] (by simp [urlKeys])
  · rw [downloadAllFS_mem_keys oracle hashFn urls 0 fs [] w]
    simp [urlKeys]

/-- Transport used by the download-phase witnesses: the second call (call
index 1) fails with a connection error, every other call returns an OK
response. -/
def witOracle : Nat → GetArgs → Except PyErr HttpResponse :=
  fun i _ =>
    if i = 1 then Except.error PyErr.connectionError
    else Except.ok { status := 200, content := "B".toList }

/-- Hash oracle used by the witnesses. -/
def witHash : List Char → List Char := fun _ => "7".toList

/-- Witness for C3: among three URLs the middle one fails, is mapped to
`None`, and all three URLs have entries. -/
theorem c3_witness :
    pyGet (downloadAllFS witOracle witHash 0 ([], [])
        (["http://ok/a.png".toList] ++ "http://bad/b.png".toList ::
          ["http://ok/c.png".toList])).2 ("http://bad/b.png".toList) = some none
  ∧ ∀ w ∈ ["http://ok/a.png".toList] ++ "http://bad/b.png".toList ::
        ["http://ok/c.png".toList],
      (pyGet (downloadAllFS witOracle witHash 0 ([], [])
          (["http://ok/a.png".toList] ++ "http://bad/b.png".toList ::
            ["http://ok/c.png".toList])).2 w).isSome = true :=
  c3_failure_never_aborts witOracle witHash [] ["http://ok/a.png".toList]
    ("http://bad/b.png".toList) ["http://ok/c.png".toList]
    (by decide) (by decide) (by decide)

/-- Witness for C8 on a list with a duplicated URL. -/
theorem c8_witness :
    (urlKeys (downloadAllFS witOracle witHash 0 ([], [])
        ["http://ok/a.png".toList, "http://ok/a.png".toList,
          "http://ok/c.png".toList]).2).Nodup
  ∧ ("http://ok/a.png".toList ∈ urlKeys (downloadAllFS witOracle witHash 0 ([], [])
        ["http://ok/a.png".toList, "http://ok/a.png".toList,
          "http://ok/c.png".toList]).2 ↔
      "http://ok/a.png".toList ∈
        ["http://ok/a.png".toList, "http://ok/a.png".toList,
          "http://ok/c.png".toList]) :=
  c8_mapping_completeness witOracle witHash []
    ["http://ok/a.png".toList, "http://ok/a.png".toList,
      "http://ok/c.png".toList] ("http://ok/a.png".toList)

/-!
The driver `main` (lines 123-178) and the file-level behaviour of
`replace_image_urls` (lines 101-119).
-/

/-- `success_count` (line 165): the number of truthy mapping values. -/
def successCount (d : List (List Char × Option (List Char))) : Nat :=
  (d.filter (fun p => truthyName p.2)).length

/-- `replace_image_urls` (lines 101-119) at the file level: re-read the
document, perform the substitution loop, rename the original file to the
backup path, then write the new content to the original path. -/
def replaceImageUrlsFS (fs : List (List Char × List Char))
    (mapping : List (List Char × Option (List Char))) :
    Except PyErr (List (List Char × List Char)) :=
  match fsGet fs htmlPathStr with
  | none => Except.error PyErr.ioError
  | some content =>
    Except.ok (fsSet (fsRename fs htmlPathStr backupPathStr) htmlPathStr
      (rewriteContent content mapping))

/-- `main` (lines 123-178), with directory creation and logging omitted:
read the document (a missing input returns early), extract the URLs
(none found returns early), run the download loop, and rewrite only when
at least one download succeeded. -/
def mainRun (fs : List (List Char × List Char))
    (oracle : Nat → GetArgs → Except PyErr HttpResponse)
    (hashFn : List Char → List Char) :
    Except PyErr (List (List Char × List Char)) :=
  match fsGet fs htmlPathStr with
  | none => Except.ok fs
  | some content =>
    let urls := extract_image_urls content
    if urls.isEmpty then Except.ok fs
    else
      let dres := downloadAllFS oracle hashFn 0 (fs, []) urls
      if 0 < successCount dres.2 then replaceImageUrlsFS dres.1 dres.2
      else Except.ok dres.1

theorem imagePath_eq_append (fn : List Char) :
    imagePath fn = (downloadDirStr ++ ['/']) ++ fn := by
  simp [imagePath]

theorem htmlPath_not_image (fn : List Char) :
    htmlPathStr ≠ imagePath fn := by
  intro heq
  have hp : (downloadDirStr ++ ['/']) <+: htmlPathStr := by
    rw [heq, imagePath_eq_append]
    exact List.prefix_append _ _
  exact absurd hp (by decide)

theorem backupPath_not_image (fn : List Char) :
    backupPathStr ≠ imagePath fn := by
  intro heq
  have hp : (downloadDirStr ++ ['/']) <+: backupPathStr := by
    rw [heq, imagePath_eq_append]
    exact List.prefix_append _ _
  exact absurd hp (by decide)

theorem pyEndsWith_getLast (s suf : List Char) (c : Char)
    (h : pyEndsWith s suf = true) (hc : suf.getLast? = some c) :
    s.getLast? = some c := by
  rw [pyEndsWith_iff_suffix] at h
  obtain ⟨t, rfl⟩ := h
  have hne : suf ≠ [] := by
    intro hnil
    rw [hnil] at hc
    cases hc
  rw [List.getLast?_append_of_ne_nil t hne]
  exact hc

/-- A path ending in `.backup` is never a written image path (image
filenames end in `.png`). -/
theorem backup_suffix_not_image (p fn : List Char)
    (hb : pyEndsWith p (".backup".toList) = true)
    (hf : pyEndsWith fn pngExt = true) : p ≠ imagePath fn := by
  intro heq
  have himg : pyEndsWith (imagePath fn) pngExt = true := by
    rw [pyEndsWith_iff_suffix] at hf ⊢
    rw [imagePath_eq_append]
    exact hf.trans (List.suffix_append _ fn)
  have h1 : p.getLast? = some 'p' := pyEndsWith_getLast p _ 'p' hb (by decide)
  have h2 : (imagePath fn).getLast? = some 'g' :=
    pyEndsWith_getLast _ _ 'g' himg (by decide)
  rw [heq, h2] at h1
  cases h1

/-- Image-file writes of the download loop do not touch any path that is
not an image path. -/
theorem downloadAllFS_fsGet_frame (oracle : Nat → GetArgs → Except PyErr HttpResponse)
    (hashFn : List Char → List Char) :
    ∀ (l : List (List Char)) (i : Nat) (fs : List (List Char × List Char))
      (d : List (List Char × Option (List Char))) (p : List Char),
      (∀ fn, pyEndsWith fn pngExt = true → p ≠ imagePath fn) →
      fsGet (downloadAllFS oracle hashFn i (fs, d) l).1 p = fsGet fs p := by
  intro l
  induction l with
  | nil =>
    intro i fs d p _
    simp [downloadAllFS]
  | cons url rest ih =>
    intro i fs d p hp
    simp only [downloadAllFS]
    cases hdl : download_image_run (oracle i) (hashFn url) url with
    | some pr =>
      obtain ⟨fn, bytes⟩ := pr
      have hfn : fn = deriveFilename (hashFn url) url :=
        download_image_run_some (oracle i) (hashFn url) url fn bytes hdl
      have hpng : pyEndsWith fn pngExt = true := by
        rw [hfn]
        exact deriveFilename_endsWith (hashFn url) url
      rw [ih (i + 1) _ _ p hp, fsGet_fsSet_ne fs (imagePath fn) bytes p (hp fn hpng)]
    | none =>
      exact ih (i + 1) _ _ p hp

theorem mainRun_eq (fs : List (List Char × List Char))
    (oracle : Nat → GetArgs → Except PyErr HttpResponse)
    (hashFn : List Char → List Char) (content : List Char)
    (hc : fsGet fs htmlPathStr = some content) :
    mainRun fs oracle hashFn =
      if (extract_image_urls content).isEmpty then Except.ok fs
      else
        if 0 < successCount
            (downloadAllFS oracle hashFn 0 (fs, []) (extract_image_urls content)).2
        then replaceImageUrlsFS
            (downloadAllFS oracle hashFn 0 (fs, []) (extract_image_urls content)).1
            (downloadAllFS oracle hashFn 0 (fs, []) (extract_image_urls content)).2
        else Except.ok
            (downloadAllFS oracle hashFn 0 (fs, []) (extract_image_urls content)).1 := by
  unfold mainRun
  rw [hc]

/-- C6: when the download phase yields zero successes the driver skips
the rewrite — the document file still holds its original content and the
backup path is exactly as before the run (in particular, absent if it
was absent). -/
theorem c6_zero_success_skips (fs : List (List Char × List Char))
    (oracle : Nat → GetArgs → Except PyErr HttpResponse)
    (hashFn : List Char → List Char) (content : List Char)
    (hc : fsGet fs htmlPathStr = some content)
    (hzero : successCount
        (downloadAllFS oracle hashFn 0 (fs, []) (extract_image_urls content)).2 = 0) :
    ∃ fs2, mainRun fs oracle hashFn = Except.ok fs2
      ∧ fsGet fs2 htmlPathStr = some content
      ∧ fsGet fs2 backupPathStr = fsGet fs backupPathStr := by
  rw [mainRun_eq fs oracle hashFn content hc]
  cases hurls : (extract_image_urls content).isEmpty with
  | true =>
    rw [if_pos rfl]
    exact ⟨fs, rfl, hc, rfl⟩
  | false =>
    rw [if_neg (by simp), hzero, if_neg (by omega)]
    refine ⟨_, rfl, ?_, ?_⟩
    · rw [downloadAllFS_fsGet_frame oracle hashFn _ 0 fs [] htmlPathStr
        (fun fn _ => htmlPath_not_image fn)]
      exact hc
    · rw [downloadAllFS_fsGet_frame oracle hashFn _ 0 fs [] backupPathStr
        (fun fn _ => backupPath_not_image fn)]

/-- Witness for C6: a run in which every download fails leaves the file
system's document and backup entries untouched. -/
theorem c6_witness :
    ∃ fs2,
      mainRun [(htmlPathStr, exampleDoc)] (fun _ _ => Except.error PyErr.connectionError)
        witHash = Except.ok fs2
    ∧ fsGet fs2 htmlPathStr = some exampleDoc
    ∧ fsGet fs2 backupPathStr =
        fsGet [(htmlPathStr, exampleDoc)] backupPathStr :=
  c6_zero_success_skips [(htmlPathStr, exampleDoc)]
    (fun _ _ => Except.error PyErr.connectionError) witHash exampleDoc
    (by decide) (by decide)

/-- C7: when at least one download succeeded the driver rewrites exactly
once: the original file is first renamed to the backup path — derived
from the original path by appending `.backup` — and only then is the
substituted content written to the original path; afterwards the backup
path holds the original content, the document path holds the
substituted content, and no other `.backup`-suffixed path was touched
(exactly one backup file). -/
theorem c7_backup_before_write (fs : List (List Char × List Char))
    (oracle : Nat → GetArgs → Except PyErr HttpResponse)
    (hashFn : List Char → List Char) (content : List Char)
    (hc : fsGet fs htmlPathStr = some content)
    (hsucc : 0 < successCount
        (downloadAllFS oracle hashFn 0 (fs, []) (extract_image_urls content)).2) :
    ∃ fs2, mainRun fs oracle hashFn = Except.ok fs2
      ∧ fsGet fs2 backupPathStr = some content
      ∧ fsGet fs2 htmlPathStr = some (rewriteContent content
          (downloadAllFS oracle hashFn 0 (fs, []) (extract_image_urls content)).2)
      ∧ (∀ p, p ≠ backupPathStr → pyEndsWith p (".backup".toList) = true →
          fsGet fs2 p = fsGet fs p)
      ∧ backupPathStr = htmlPathStr ++ ".backup".toList := by
  rw [mainRun_eq fs oracle hashFn content hc]
  cases hurls : (extract_image_urls content).isEmpty with
  | true =>
    exfalso
    have he : extract_image_urls content = [] := List.isEmpty_iff.mp hurls
    rw [he] at hsucc
    simp [downloadAllFS, successCount] at hsucc
  | false =>
    rw [if_neg (by simp), if_pos hsucc]
    have hh : fsGet (downloadAllFS oracle hashFn 0 (fs, [])
        (extract_image_urls content)).1 htmlPathStr = some content := by
      rw [downloadAllFS_fsGet_frame oracle hashFn _ 0 fs [] htmlPathStr
        (fun fn _ => htmlPath_not_image fn)]
      exact hc
    unfold replaceImageUrlsFS
    rw [hh]
    refine ⟨_, rfl, ?_, ?_, ?_, by decide⟩
    · rw [fsGet_fsSet_ne _ htmlPathStr _ backupPathStr (by decide)]
      unfold fsRename
      rw [hh]
      exact fsGet_fsSet_self _ backupPathStr content
    · exact fsGet_fsSet_self _ htmlPathStr _
    · intro p hpb hpe
      have hph : p ≠ htmlPathStr := by
        intro hp
        rw [hp] at hpe
        exact absurd hpe (by decide)
      rw [fsGet_fsSet_ne _ htmlPathStr _ p hph]
      unfold fsRename
      rw [hh]
      rw [fsGet_fsSet_ne _ backupPathStr content p hpb]
      rw [fsGet_fsRemove_ne _ htmlPathStr p hph]
      exact downloadAllFS_fsGet_frame oracle hashFn _ 0 fs [] p
        (fun fn hfn => backup_suffix_not_image p fn hpe hfn)

/-- Witness for C7: a run on the example document in which the first
download succeeds. -/
theorem c7_witness :
    ∃ fs2, mainRun [(htmlPathStr, exampleDoc)] witOracle witHash = Except.ok fs2
      ∧ fsGet fs2 backupPathStr = some exampleDoc
      ∧ fsGet fs2 htmlPathStr = some (rewriteContent exampleDoc
          (downloadAllFS witOracle witHash 0 ([(htmlPathStr, exampleDoc)], [])
            (extract_image_urls exampleDoc)).2)
      ∧ (∀ p, p ≠ backupPathStr → pyEndsWith p (".backup".toList) = true →
          fsGet fs2 p = fsGet [(htmlPathStr, exampleDoc)] p)
      ∧ backupPathStr = htmlPathStr ++ ".backup".toList :=
  c7_backup_before_write [(htmlPathStr, exampleDoc)] witOracle witHash exampleDoc
    (by decide) (by decide)
